import Mathlib

/-!
Verification development for the pegium PEG combinator library
(src/pegium/grammar.hpp, src/pegium/Parser.hpp, src/pegium/syntax-tree.hpp).

The input is modelled as a list of bytes (natural numbers below 256); a
string_view suffix `{sv.data() + i, sv.size() - i}` is modelled by
`List.drop i`.  The C++ matching operations return `std::size_t` where
`PARSE_ERROR = SIZE_MAX` is the failure sentinel; we model the outcome of
`parse_terminal` / `parse_rule` with an explicit three-valued result:
`ok n` (consumed `n` bytes), `err` (the PARSE_ERROR sentinel), and `stuck`
for executions the C++ engine aborts on (failed `assert`) or that exceed
the recursion-depth fuel of the model.  Fuel bounds only the nesting depth
of grammar expressions, never loop iteration counts, so any concrete parse
evaluates with a small fuel.

Rule-mode matchers mutate `parent.content` in C++; here they return the
list of children appended to the parent, and each combinator's snapshot /
truncate behaviour (`parent.content.resize(size)`) is modelled by the
children it keeps on each path, following the source exactly.  In
particular `UnorderedGroup::parse_rule` has no snapshot or resize, so its
failure path keeps the children of partially matched members.
-/

/-- The failure sentinel std::numeric_limits of size_t: 2 to the 64 minus 1. -/
def PARSE_ERROR : Nat := 2 ^ 64 - 1

/-- SIZE_MAX, the unbounded upper repetition bound used by many and at_least_one. -/
def SIZE_MAX : Nat := 2 ^ 64 - 1

/-- Outcome of a matching operation: consumed byte count, the PARSE_ERROR
sentinel, or an aborted execution (failed assert in the C++ source, or
exhausted expression-depth fuel of the model). -/
inductive Res : Type where
  | ok (n : Nat)
  | err
  | stuck
deriving DecidableEq

/-- tolower lookup from make_tolower: ASCII upper-case letters map to
lower-case, every other byte is unchanged. -/
def tolowerB (b : Nat) : Nat :=
  if 65 ≤ b ∧ b ≤ 90 then b + 32 else b

/-- The isword_lookup table built from the range string "a-zA-Z0-9_". -/
def isword (b : Nat) : Bool :=
  (97 ≤ b ∧ b ≤ 122) ∨ (65 ≤ b ∧ b ≤ 90) ∨ (48 ≤ b ∧ b ≤ 57) ∨ b = 95

/-- The letter test used by Literal.isCaseSensitive. -/
def isLetter (b : Nat) : Bool :=
  (97 ≤ b ∧ b ≤ 122) ∨ (65 ≤ b ∧ b ≤ 90)

/-- The word-boundary lookahead isword(sv[i]).  When `i` is the size of the
view the C++ code reads the byte one past the view, which for the views the
engine builds is the NUL terminator of the root's fullText, never a word
character; the model returns false for any out-of-range index. -/
def wordAt (s : List Nat) (i : Nat) : Bool :=
  match s.get? i with
  | some b => isword b
  | none => false

/-- Terminal-rule visibility (TerminalRule::Kind). -/
inductive TKind : Type where
  | Normal
  | Hidden
  | Ignored
deriving DecidableEq

/-- The grammar-expression algebra of grammar.hpp.  Rule calls are embedded
structurally: a RuleCall to a parser / data-type / terminal rule is the
corresponding constructor holding the called rule's body, so the embedding
covers every finitely deep (non-left-recursive) grammar.  A character-range
lookup array is represented by the list of bytes it accepts. -/
inductive Expr : Type where
  | lit (l : List Nat) (caseSensitive : Bool)
  | chars (set : List Nat)
  | anyChar
  | group (es : List Expr)
  | unordered (es : List Expr)
  | choice (es : List Expr)
  | rep (mn mx : Nat) (e : Expr)
  | andPred (e : Expr)
  | notPred (e : Expr)
  | parserRule (e : Expr)
  | dataTypeRule (e : Expr)
  | terminalRule (k : TKind) (e : Expr)
  | assignment (e : Expr)

/-- A CST node (syntax-tree.hpp): children, covered text, grammar source,
whether an assignment action was recorded, leaf flag, hidden flag. -/
inductive CstNode : Type where
  | mk (content : List CstNode) (text : List Nat) (src : Expr)
      (action : Bool) (isLeaf : Bool) (hidden : Bool)

def CstNode.content : CstNode → List CstNode
  | .mk c _ _ _ _ _ => c

def CstNode.text : CstNode → List Nat
  | .mk _ t _ _ _ _ => t

def CstNode.src : CstNode → Expr
  | .mk _ _ g _ _ _ => g

def CstNode.action : CstNode → Bool
  | .mk _ _ _ a _ _ => a

def CstNode.isLeaf : CstNode → Bool
  | .mk _ _ _ _ l _ => l

def CstNode.hidden : CstNode → Bool
  | .mk _ _ _ _ _ h => h

/-- Record the assignment action on a node (parent.content[index].action = this). -/
def setAction : CstNode → CstNode
  | .mk c t g _ l h => .mk c t g true l h

/-- A hidden terminal rule held by the parsing Context: its visibility kind
(Hidden or Ignored for the rules the facade collects) and its body. -/
structure HRule : Type where
  kind : TKind
  body : Expr

/-- The parsing Context: the ordered list of hidden terminal rules. -/
abbrev Ctx : Type := List HRule

/-- Literal::isCaseSensitive: an insensitively constructed literal still
compares sensitively when it contains no ASCII letter. -/
def effSensitive (l : List Nat) (caseSensitive : Bool) : Bool :=
  if caseSensitive then true else l.all (fun b => !isLetter b)

/-- The comparison loop of Literal::parse_terminal. -/
def litCore (sens : Bool) : List Nat → List Nat → Bool
  | [], _ => true
  | _ :: _, [] => false
  | a :: l, b :: s => ((if sens then b else tolowerB b) = a : Bool) && litCore sens l s

/-- Literal::parse_terminal: fail if the literal is longer than the input,
else compare byte by byte (through tolower when insensitive). -/
def litT (l : List Nat) (caseSensitive : Bool) (s : List Nat) : Res :=
  if l.length > s.length then .err
  else if litCore (effSensitive l caseSensitive) l s then .ok l.length else .err

/-- CharactersRanges::parse_terminal: accept one byte through the lookup. -/
def charT (set : List Nat) (s : List Nat) : Res :=
  match s with
  | [] => .err
  | b :: _ => if set.contains b then .ok 1 else .err

/-- AnyCharacter::codepoint_length: UTF-8 codepoint length from the first
byte, without validating continuation bytes. -/
def cpLen (s : List Nat) : Res :=
  match s with
  | [] => .err
  | b :: _ =>
    if b &&& 0x80 = 0 then .ok 1
    else if b &&& 0xE0 = 0xC0 ∧ 2 ≤ s.length then .ok 2
    else if b &&& 0xF0 = 0xE0 ∧ 3 ≤ s.length then .ok 3
    else if b &&& 0xF8 = 0xF0 ∧ 4 ≤ s.length then .ok 4
    else .err

/-- Group::parse_terminal: match the elements sequentially, summing the
consumed lengths; any failure fails the group. -/
def gseqT (pr : Expr → List Nat → Res) : List Expr → List Nat → Res
  | [], _ => .ok 0
  | e :: es, s =>
    match pr e s with
    | .ok n =>
      match gseqT pr es (s.drop n) with
      | .ok m => .ok (n + m)
      | r => r
    | r => r

/-- OrderedChoice::parse_terminal: first alternative that succeeds wins. -/
def gchoiceT (pr : Expr → List Nat → Res) : List Expr → List Nat → Res
  | [], _ => .err
  | e :: es, s =>
    match pr e s with
    | .ok n => .ok n
    | .err => gchoiceT pr es s
    | .stuck => .stuck

/-- The mandatory phase of Repetition::parse_terminal (count < min). -/
def rmandT (p : List Nat → Res) : Nat → List Nat → Res
  | 0, _ => .ok 0
  | k + 1, s =>
    match p s with
    | .ok n =>
      match rmandT p k (s.drop n) with
      | .ok m => .ok (n + m)
      | r => r
    | r => r

/-- The optional phase of Repetition::parse_terminal (count < max): a
failure ends the loop, keeping what was consumed so far. -/
def roptT (p : List Nat → Res) : Nat → List Nat → Res
  | 0, _ => .ok 0
  | k + 1, s =>
    match p s with
    | .ok n =>
      match roptT p k (s.drop n) with
      | .ok m => .ok (n + m)
      | r => r
    | .err => .ok 0
    | .stuck => .stuck

/-- One pass of UnorderedGroup::parse_terminal: scan the members left to
right, skip already processed ones, and stop at the first success (the
fold over || short-circuits); returns the updated processed flags. -/
def upassT (pr : Expr → List Nat → Res) :
    List (Expr × Bool) → List Nat → Res × List (Expr × Bool)
  | [], _ => (.err, [])
  | (e, done) :: ms, s =>
    if done then
      let r := upassT pr ms s
      (r.1, (e, done) :: r.2)
    else
      match pr e s with
      | .ok n => (.ok n, (e, true) :: ms)
      | .err =>
        let r := upassT pr ms s
        (r.1, (e, false) :: r.2)
      | .stuck => (.stuck, (e, false) :: ms)

/-- The pass loop of UnorderedGroup::parse_terminal.  Each successful pass
marks one more member processed, so the loop runs at most one pass per
member before it either completes or makes no progress; the fuel passed by
the caller (member count + 1) therefore never runs out. -/
def uloopT (pr : Expr → List Nat → Res) : Nat → List (Expr × Bool) → List Nat → Res
  | 0, _, _ => .stuck
  | f + 1, ms, s =>
    if ms.all (fun m => m.2) then .ok 0
    else
      match upassT pr ms s with
      | (.ok n, ms2) =>
        match uloopT pr f ms2 (s.drop n) with
        | .ok m => .ok (n + m)
        | r => r
      | (.err, _) => .err
      | (.stuck, _) => .stuck

/-- parse_terminal for every expression of the algebra.  The first argument
is the expression-depth fuel of the model; loop bounds are taken from the
source (min / max for repetitions, the member count for unordered groups)
and do not consume fuel.  Rule calls delegate to the called rule's element
(ParserRule / DataTypeRule / TerminalRule all forward parse_terminal), and
Assignment::parse_terminal is assert(false). -/
def parseT : Nat → Expr → List Nat → Res
  | 0, _, _ => .stuck
  | fuel + 1, e, s =>
    match e with
    | .lit l cs => litT l cs s
    | .chars set => charT set s
    | .anyChar => cpLen s
    | .group es => gseqT (fun e2 s2 => parseT fuel e2 s2) es s
    | .choice es => gchoiceT (fun e2 s2 => parseT fuel e2 s2) es s
    | .unordered es =>
      uloopT (fun e2 s2 => parseT fuel e2 s2) (es.length + 1)
        (es.map (fun e2 => (e2, false))) s
    | .rep mn mx e2 =>
      match rmandT (fun s2 => parseT fuel e2 s2) mn s with
      | .ok n =>
        match roptT (fun s2 => parseT fuel e2 s2) (mx - mn) (s.drop n) with
        | .ok m => .ok (n + m)
        | r => r
      | r => r
    | .andPred e2 =>
      match parseT fuel e2 s with
      | .ok _ => .ok 0
      | .err => .err
      | .stuck => .stuck
    | .notPred e2 =>
      match parseT fuel e2 s with
      | .ok _ => .err
      | .err => .ok 0
      | .stuck => .stuck
    | .parserRule e2 => parseT fuel e2 s
    | .dataTypeRule e2 => parseT fuel e2 s
    | .terminalRule _ e2 => parseT fuel e2 s
    | .assignment _ => .stuck

/-- One pass of the for loop inside Context::skipHiddenNodes: try every
hidden terminal in registration order at the advancing position; a match
must consume at least one byte (assert, modelled as an aborted execution),
and appends a hidden leaf child unless the rule is Ignored.  Returns the
bytes consumed, the appended nodes, and whether any rule matched. -/
def spass (pt : Expr → List Nat → Res) : List HRule → List Nat →
    Option (Nat × List CstNode × Bool)
  | [], _ => some (0, [], false)
  | h :: hs, s =>
    match pt h.body s with
    | .ok 0 => none
    | .ok len =>
      match spass pt hs (s.drop len) with
      | none => none
      | some (i, ns, _) =>
        if h.kind = TKind.Ignored then some (len + i, ns, true)
        else
          some (len + i,
            CstNode.mk [] (s.take len) (.terminalRule h.kind h.body) false true true :: ns,
            true)
    | .err => spass pt hs s
    | .stuck => none

/-- The while loop of Context::skipHiddenNodes: repeat passes until one
makes no match.  A matching pass consumes at least one byte (zero-width
matches abort), so the fuel the caller passes (input length + 1) cannot
run out; running out is mapped to the aborted outcome. -/
def sloop (pt : Expr → List Nat → Res) (hs : List HRule) :
    Nat → List Nat → Option (Nat × List CstNode)
  | 0, _ => none
  | f + 1, s =>
    match spass pt hs s with
    | none => none
    | some (i, ns, matched) =>
      if matched then
        match sloop pt hs f (s.drop i) with
        | none => none
        | some (j, ns2) => some (i + j, ns ++ ns2)
      else some (i, ns)

/-- Context::skipHiddenNodes: skip hidden tokens at the head of the input,
returning the consumed byte count and the hidden leaf children appended to
the parent node; none models a failed assert. -/
def skipHidden (ctx : Ctx) (fuel : Nat) (s : List Nat) : Option (Nat × List CstNode) :=
  sloop (fun e2 s2 => parseT fuel e2 s2) ctx (s.length + 1) s

/-- Group::parse_rule: sequential matching; on any element failure the
parent is resized back to the snapshot taken at the start of the group, so
a failing group contributes no children. -/
def gseqR (pr : Expr → List Nat → Res × List CstNode) :
    List Expr → List Nat → Res × List CstNode
  | [], _ => (.ok 0, [])
  | e :: es, s =>
    match pr e s with
    | (.ok n, cs) =>
      match gseqR pr es (s.drop n) with
      | (.ok m, cs2) => (.ok (n + m), cs ++ cs2)
      | (.err, _) => (.err, [])
      | (.stuck, _) => (.stuck, [])
    | (.err, _) => (.err, [])
    | (.stuck, _) => (.stuck, [])

/-- OrderedChoice::parse_rule: after each failed alternative the parent is
resized back to the pre-attempt size; the first success wins. -/
def gchoiceR (pr : Expr → List Nat → Res × List CstNode) :
    List Expr → List Nat → Res × List CstNode
  | [], _ => (.err, [])
  | e :: es, s =>
    match pr e s with
    | (.ok n, cs) => (.ok n, cs)
    | (.err, _) => gchoiceR pr es s
    | (.stuck, _) => (.stuck, [])

/-- The mandatory phase of Repetition::parse_rule: a failure resizes the
parent back to the snapshot taken before the repetition. -/
def rmandR (p : List Nat → Res × List CstNode) : Nat → List Nat → Res × List CstNode
  | 0, _ => (.ok 0, [])
  | k + 1, s =>
    match p s with
    | (.ok n, cs) =>
      match rmandR p k (s.drop n) with
      | (.ok m, cs2) => (.ok (n + m), cs ++ cs2)
      | (.err, _) => (.err, [])
      | (.stuck, _) => (.stuck, [])
    | (.err, _) => (.err, [])
    | (.stuck, _) => (.stuck, [])

/-- The optional phase of Repetition::parse_rule: the snapshot is renewed
before each attempt, so a failing attempt is truncated away and the loop
ends keeping the children of the earlier iterations. -/
def roptR (p : List Nat → Res × List CstNode) : Nat → List Nat → Res × List CstNode
  | 0, _ => (.ok 0, [])
  | k + 1, s =>
    match p s with
    | (.ok n, cs) =>
      match roptR p k (s.drop n) with
      | (.ok m, cs2) => (.ok (n + m), cs ++ cs2)
      | (.err, _) => (.stuck, [])
      | (.stuck, _) => (.stuck, [])
    | (.err, _) => (.ok 0, [])
    | (.stuck, _) => (.stuck, [])

/-- One pass of UnorderedGroup::parse_rule: scan the members left to right,
skip processed ones, stop at the first success.  There is no snapshot and
no resize in the source, so the children appended by a member that fails
after partial progress stay in the parent: a failing attempt contributes
its children to the result. -/
def upassR (pr : Expr → List Nat → Res × List CstNode) :
    List (Expr × Bool) → List Nat → Res × List CstNode × List (Expr × Bool)
  | [], _ => (.err, [], [])
  | (e, done) :: ms, s =>
    if done then
      let r := upassR pr ms s
      (r.1, r.2.1, (e, done) :: r.2.2)
    else
      match pr e s with
      | (.ok n, cs) => (.ok n, cs, (e, true) :: ms)
      | (.err, leak) =>
        let r := upassR pr ms s
        (r.1, leak ++ r.2.1, (e, false) :: r.2.2)
      | (.stuck, _) => (.stuck, [], (e, false) :: ms)

/-- The pass loop of UnorderedGroup::parse_rule.  Succeeds (with the total
consumed length) when every member has been processed; a pass without
progress ends the loop, and if members are missing the group fails while
the children appended so far remain in the parent.  As in the terminal
variant the caller's fuel (member count + 1) cannot run out. -/
def uloopR (pr : Expr → List Nat → Res × List CstNode) :
    Nat → List (Expr × Bool) → List Nat → Res × List CstNode
  | 0, _, _ => (.stuck, [])
  | f + 1, ms, s =>
    if ms.all (fun m => m.2) then (.ok 0, [])
    else
      match upassR pr ms s with
      | (.ok n, cs, ms2) =>
        match uloopR pr f ms2 (s.drop n) with
        | (.ok m, cs2) => (.ok (n + m), cs ++ cs2)
        | (.err, cs2) => (.err, cs ++ cs2)
        | (.stuck, _) => (.stuck, [])
      | (.err, leak, _) => (.err, leak)
      | (.stuck, _, _) => (.stuck, [])

/-- parse_rule for every expression of the algebra.  Terminal-producing
primitives append a leaf child and then skip trailing hidden tokens into
the parent; rule calls wrap their element's children in a single node
carrying the rule as grammar source; predicates parse into a scratch node
that is discarded.  TerminalRule::parse_rule asserts that the called rule
is not Ignored, and Assignment::parse_rule records the action on the first
child it appended (parent.content[index] with index the pre-parse size,
out of range if the inner expression appended nothing). -/
def parseR : Nat → Ctx → Expr → List Nat → Res × List CstNode
  | 0, _, _, _ => (.stuck, [])
  | fuel + 1, ctx, e, s =>
    match e with
    | .lit l cs =>
      match litT l cs s with
      | .ok n =>
        if isword (l.getLastD 0) && wordAt s n then (.err, [])
        else
          match skipHidden ctx fuel (s.drop n) with
          | some (j, ns) =>
            (.ok (n + j), CstNode.mk [] (s.take n) (.lit l cs) false true false :: ns)
          | none => (.stuck, [])
      | .err => (.err, [])
      | .stuck => (.stuck, [])
    | .chars set =>
      match charT set s with
      | .ok n =>
        if n < s.length && isword (s.getD (n - 1) 0) && isword (s.getD n 0) then (.err, [])
        else
          match skipHidden ctx fuel (s.drop n) with
          | some (j, ns) =>
            (.ok (n + j), CstNode.mk [] (s.take n) (.chars set) false true false :: ns)
          | none => (.stuck, [])
      | .err => (.err, [])
      | .stuck => (.stuck, [])
    | .anyChar =>
      match cpLen s with
      | .ok n =>
        match skipHidden ctx fuel (s.drop n) with
        | some (j, ns) =>
          (.ok (n + j), CstNode.mk [] (s.take n) .anyChar false true false :: ns)
        | none => (.stuck, [])
      | .err => (.err, [])
      | .stuck => (.stuck, [])
    | .group es => gseqR (fun e2 s2 => parseR fuel ctx e2 s2) es s
    | .choice es => gchoiceR (fun e2 s2 => parseR fuel ctx e2 s2) es s
    | .unordered es =>
      uloopR (fun e2 s2 => parseR fuel ctx e2 s2) (es.length + 1)
        (es.map (fun e2 => (e2, false))) s
    | .rep mn mx e2 =>
      match rmandR (fun s2 => parseR fuel ctx e2 s2) mn s with
      | (.ok n, cs) =>
        match roptR (fun s2 => parseR fuel ctx e2 s2) (mx - mn) (s.drop n) with
        | (.ok m, cs2) => (.ok (n + m), cs ++ cs2)
        | (.err, _) => (.stuck, [])
        | (.stuck, _) => (.stuck, [])
      | (.err, _) => (.err, [])
      | (.stuck, _) => (.stuck, [])
    | .andPred e2 =>
      match parseR fuel ctx e2 s with
      | (.ok _, _) => (.ok 0, [])
      | (.err, _) => (.err, [])
      | (.stuck, _) => (.stuck, [])
    | .notPred e2 =>
      match parseR fuel ctx e2 s with
      | (.ok _, _) => (.err, [])
      | (.err, _) => (.ok 0, [])
      | (.stuck, _) => (.stuck, [])
    | .parserRule e2 =>
      match parseR fuel ctx e2 s with
      | (.ok n, cs) =>
        (.ok n, [CstNode.mk cs (s.take n) (.parserRule e2) false false false])
      | (.err, _) => (.err, [])
      | (.stuck, _) => (.stuck, [])
    | .dataTypeRule e2 =>
      match parseR fuel ctx e2 s with
      | (.ok n, cs) =>
        (.ok n, [CstNode.mk cs (s.take n) (.dataTypeRule e2) false false false])
      | (.err, _) => (.err, [])
      | (.stuck, _) => (.stuck, [])
    | .terminalRule k e2 =>
      match parseT fuel e2 s with
      | .ok n =>
        if k = TKind.Ignored then (.stuck, [])
        else
          match skipHidden ctx fuel (s.drop n) with
          | some (j, ns) =>
            (.ok (n + j),
              CstNode.mk [] (s.take n) (.terminalRule k e2) false true
                (decide (k = TKind.Hidden)) :: ns)
          | none => (.stuck, [])
      | .err => (.err, [])
      | .stuck => (.stuck, [])
    | .assignment e2 =>
      match parseR fuel ctx e2 s with
      | (.ok n, c0 :: cs) => (.ok n, setAction c0 :: cs)
      | (.ok _, []) => (.stuck, [])
      | (.err, cs) => (.err, cs)
      | (.stuck, _) => (.stuck, [])

/-- The result of a rule's top-level parse (IParser ParseResult): consumed
length with size_t arithmetic, the full-match flag, the root CST node and
the computed value. -/
structure PResult : Type where
  len : Nat
  ret : Bool
  root : CstNode
  value : List Nat

/-- The concatenation of the text of all non-hidden leaf descendants, in
iteration order (node first, then its subtrees): the default data-type
value converter installed by Parser::rule.  The fuel bounds the tree depth
and is always instantiated above the depth of the tree at hand. -/
def catVisF : Nat → CstNode → List Nat
  | 0, _ => []
  | f + 1, n =>
    (if n.isLeaf && !n.hidden then n.text else []) ++ (n.content.map (catVisF f)).flatten

/-- TerminalRule::parse: top-level parse of a terminal rule.  It receives
the per-parse Context but never consults it — the match runs in
terminal-mode only, with no hidden skipping — marks the root as a leaf, computes the value with the default terminal
converter (the root's text, which is the whole input), and reports
full_match as len == size where a failed match leaves len = PARSE_ERROR. -/
def parseTopTerminal (fuel : Nat) (_ctx : Ctx) (k : TKind) (body : Expr) (s : List Nat) :
    Option PResult :=
  match parseT fuel body s with
  | .ok n =>
    some ⟨n, decide (n = s.length), CstNode.mk [] s (.terminalRule k body) false true false, s⟩
  | .err =>
    some ⟨PARSE_ERROR, decide (PARSE_ERROR = s.length),
      CstNode.mk [] s (.terminalRule k body) false true false, s⟩
  | .stuck => none

/-- DataTypeRule::parse: create the root anchored to the full text, skip
leading hidden tokens, parse the rule body in rule-mode, and report
len = i + parse_rule(...) with size_t wrap-around when the body fails,
full_match = (len == size), and the value of the default converter over
the root. -/
def parseTopData (fuel : Nat) (ctx : Ctx) (body : Expr) (s : List Nat) :
    Option PResult :=
  match skipHidden ctx fuel s with
  | none => none
  | some (i, ns) =>
    match parseR fuel ctx (.dataTypeRule body) (s.drop i) with
    | (.ok n, cs) =>
      let root := CstNode.mk (ns ++ cs) s (.dataTypeRule body) false false false
      some ⟨i + n, decide (i + n = s.length), root, catVisF (fuel + 1) root⟩
    | (.err, cs) =>
      let root := CstNode.mk (ns ++ cs) s (.dataTypeRule body) false false false
      some ⟨(i + PARSE_ERROR) % 2 ^ 64,
        decide ((i + PARSE_ERROR) % 2 ^ 64 = s.length), root, catVisF (fuel + 1) root⟩
    | (.stuck, _) => none

/-- The state of a Reference placeholder (syntax-tree.hpp): the raw
reference text, the resolved flag and the cached target pointer (null
modelled as none). -/
structure RefState (A : Type) : Type where
  refText : List Nat
  resolved : Bool
  ref : Option A

/-- Reference::get() as a sequential state machine (the mutex and the
acquire / release pair only serialize concurrent callers onto this
protocol).  Returns the visible pointer, the updated state, and whether
the user resolver was invoked on this call. -/
def refGet {A : Type} (resolve : List Nat → Option A) (st : RefState A) :
    Option A × RefState A × Bool :=
  if st.resolved then (st.ref, st, false)
  else
    match resolve st.refText with
    | some v => (some v, { st with ref := some v, resolved := true }, true)
    | none => (st.ref, st, true)

/-- ASCII bytes of a string literal, for concrete inputs. -/
def bytes (s : String) : List Nat := s.toList.map Char.toNat

/-- A successful literal match always consumes exactly the literal's length. -/
theorem litT_ok_length {l : List Nat} {cs : Bool} {s : List Nat} {n : Nat}
    (h : litT l cs s = .ok n) : n = l.length := by
  unfold litT at h
  split at h
  · cases h
  · split at h
    · cases h; rfl
    · cases h

/-- A successful literal match fits inside the input. -/
theorem litT_ok_le {l : List Nat} {cs : Bool} {s : List Nat} {n : Nat}
    (h : litT l cs s = .ok n) : n ≤ s.length := by
  unfold litT at h
  split at h
  · cases h
  · split at h
    · cases h; omega
    · cases h

/-- Literal::parse_terminal never aborts. -/
theorem litT_ne_stuck (l : List Nat) (cs : Bool) (s : List Nat) : litT l cs s ≠ .stuck := by
  unfold litT
  split
  · intro h; cases h
  · split <;> intro h <;> cases h

/-- A successful character-range match consumes one byte of a nonempty input. -/
theorem charT_ok_le {set s : List Nat} {n : Nat} (h : charT set s = .ok n) :
    n ≤ s.length := by
  unfold charT at h
  split at h
  · cases h
  · split at h
    · cases h; simp
    · cases h

/-- A successful codepoint measurement fits inside the input. -/
theorem cpLen_ok_le {s : List Nat} {n : Nat} (h : cpLen s = .ok n) : n ≤ s.length := by
  unfold cpLen at h
  split at h
  · cases h
  · split at h
    · cases h
      rename_i b rest _
      simp
    · split at h
      · cases h; omega
      · split at h
        · cases h; omega
        · split at h
          · cases h; omega
          · cases h

/-- Sequential matching consumes at most the input length, given that the
element matcher does. -/
theorem gseqT_le {pr : Expr → List Nat → Res}
    (H : ∀ e s n, pr e s = .ok n → n ≤ s.length) :
    ∀ es s n, gseqT pr es s = .ok n → n ≤ s.length := by
  intro es
  induction es with
  | nil => intro s n h; cases h; simp
  | cons e es ih =>
    intro s n h
    cases hp : pr e s with
    | ok n1 =>
      simp only [gseqT, hp] at h
      cases hq : gseqT pr es (s.drop n1) with
      | ok m =>
        simp only [hq, Res.ok.injEq] at h
        have h1 := H e s n1 hp
        have h2 := ih (s.drop n1) m hq
        rw [List.length_drop] at h2
        omega
      | err => simp only [hq] at h; cases h
      | stuck => simp only [hq] at h; cases h
    | err => simp only [gseqT, hp] at h; cases h
    | stuck => simp only [gseqT, hp] at h; cases h

/-- Ordered choice consumes at most the input length. -/
theorem gchoiceT_le {pr : Expr → List Nat → Res}
    (H : ∀ e s n, pr e s = .ok n → n ≤ s.length) :
    ∀ es s n, gchoiceT pr es s = .ok n → n ≤ s.length := by
  intro es
  induction es with
  | nil => intro s n h; cases h
  | cons e es ih =>
    intro s n h
    cases hp : pr e s with
    | ok n1 =>
      simp only [gchoiceT, hp, Res.ok.injEq] at h
      subst h
      exact H e s n1 hp
    | err =>
      simp only [gchoiceT, hp] at h
      exact ih s n h
    | stuck => simp only [gchoiceT, hp] at h; cases h

/-- The mandatory repetition phase consumes at most the input length. -/
theorem rmandT_le {p : List Nat → Res}
    (H : ∀ s n, p s = .ok n → n ≤ s.length) :
    ∀ k s n, rmandT p k s = .ok n → n ≤ s.length := by
  intro k
  induction k with
  | zero => intro s n h; cases h; simp
  | succ k ih =>
    intro s n h
    cases hp : p s with
    | ok n1 =>
      simp only [rmandT, hp] at h
      cases hq : rmandT p k (s.drop n1) with
      | ok m =>
        simp only [hq, Res.ok.injEq] at h
        have h1 := H s n1 hp
        have h2 := ih (s.drop n1) m hq
        rw [List.length_drop] at h2
        omega
      | err => simp only [hq] at h; cases h
      | stuck => simp only [hq] at h; cases h
    | err => simp only [rmandT, hp] at h; cases h
    | stuck => simp only [rmandT, hp] at h; cases h

/-- The optional repetition phase consumes at most the input length. -/
theorem roptT_le {p : List Nat → Res}
    (H : ∀ s n, p s = .ok n → n ≤ s.length) :
    ∀ k s n, roptT p k s = .ok n → n ≤ s.length := by
  intro k
  induction k with
  | zero => intro s n h; cases h; simp
  | succ k ih =>
    intro s n h
    cases hp : p s with
    | ok n1 =>
      simp only [roptT, hp] at h
      cases hq : roptT p k (s.drop n1) with
      | ok m =>
        simp only [hq, Res.ok.injEq] at h
        have h1 := H s n1 hp
        have h2 := ih (s.drop n1) m hq
        rw [List.length_drop] at h2
        omega
      | err => simp only [hq] at h; cases h
      | stuck => simp only [hq] at h; cases h
    | err =>
      simp only [roptT, hp, Res.ok.injEq] at h
      omega
    | stuck => simp only [roptT, hp] at h; cases h

/-- An unordered-group pass consumes at most the input length. -/
theorem upassT_le {pr : Expr → List Nat → Res}
    (H : ∀ e s n, pr e s = .ok n → n ≤ s.length) :
    ∀ ms s n, (upassT pr ms s).1 = .ok n → n ≤ s.length := by
  intro ms
  induction ms with
  | nil => intro s n h; cases h
  | cons m ms ih =>
    intro s n h
    obtain ⟨e, done⟩ := m
    by_cases hd : done
    · subst hd
      simp only [upassT, if_true] at h
      exact ih s n h
    · simp only [Bool.not_eq_true] at hd
      subst hd
      cases hp : pr e s with
      | ok n1 =>
        simp [upassT, hp] at h
        subst h
        exact H e s n1 hp
      | err =>
        simp [upassT, hp] at h
        exact ih s n h
      | stuck =>
        simp [upassT, hp] at h

/-- The unordered-group pass loop consumes at most the input length. -/
theorem uloopT_le {pr : Expr → List Nat → Res}
    (H : ∀ e s n, pr e s = .ok n → n ≤ s.length) :
    ∀ f ms s n, uloopT pr f ms s = .ok n → n ≤ s.length := by
  intro f
  induction f with
  | zero => intro ms s n h; cases h
  | succ f ih =>
    intro ms s n h
    simp only [uloopT] at h
    split at h
    · cases h; simp
    · cases hp : upassT pr ms s with
      | mk r1 ms2 =>
        rw [hp] at h
        cases r1 with
        | ok n1 =>
          cases hq : uloopT pr f ms2 (s.drop n1) with
          | ok m =>
            simp only [hq, Res.ok.injEq] at h
            have h1 := upassT_le H ms s n1 (by rw [hp])
            have h2 := ih ms2 (s.drop n1) m hq
            rw [List.length_drop] at h2
            omega
          | err => simp only [hq] at h; cases h
          | stuck => simp only [hq] at h; cases h
        | err => cases h
        | stuck => cases h

/-- parse_terminal never reports more consumed bytes than the input has. -/
theorem parseT_le : ∀ fuel e s n, parseT fuel e s = .ok n → n ≤ s.length := by
  intro fuel
  induction fuel with
  | zero => intro e s n h; cases h
  | succ fuel ih =>
    intro e s n h
    cases e with
    | lit l cs => exact litT_ok_le h
    | chars set => exact charT_ok_le h
    | anyChar => exact cpLen_ok_le h
    | group es => exact gseqT_le (fun e2 s2 n2 hh => ih e2 s2 n2 hh) es s n h
    | choice es => exact gchoiceT_le (fun e2 s2 n2 hh => ih e2 s2 n2 hh) es s n h
    | unordered es =>
      exact uloopT_le (fun e2 s2 n2 hh => ih e2 s2 n2 hh) (es.length + 1) _ s n h
    | rep mn mx e2 =>
      cases hp : rmandT (fun s2 => parseT fuel e2 s2) mn s with
      | ok n1 =>
        simp only [parseT, hp] at h
        cases hq : roptT (fun s2 => parseT fuel e2 s2) (mx - mn) (s.drop n1) with
        | ok m =>
          simp only [hq, Res.ok.injEq] at h
          have h1 := rmandT_le (fun s2 n2 hh => ih e2 s2 n2 hh) mn s n1 hp
          have h2 := roptT_le (fun s2 n2 hh => ih e2 s2 n2 hh) (mx - mn) (s.drop n1) m hq
          rw [List.length_drop] at h2
          omega
        | err => simp only [hq] at h; cases h
        | stuck => simp only [hq] at h; cases h
      | err => simp only [parseT, hp] at h; cases h
      | stuck => simp only [parseT, hp] at h; cases h
    | andPred e2 =>
      cases hp : parseT fuel e2 s with
      | ok n1 =>
        simp only [parseT, hp, Res.ok.injEq] at h
        omega
      | err => simp only [parseT, hp] at h; cases h
      | stuck => simp only [parseT, hp] at h; cases h
    | notPred e2 =>
      cases hp : parseT fuel e2 s with
      | ok n1 => simp only [parseT, hp] at h; cases h
      | err =>
        simp only [parseT, hp, Res.ok.injEq] at h
        omega
      | stuck => simp only [parseT, hp] at h; cases h
    | parserRule e2 => exact ih e2 s n h
    | dataTypeRule e2 => exact ih e2 s n h
    | terminalRule k e2 => exact ih e2 s n h
    | assignment e2 => cases h

/-- The whitespace character class " \t\r\n\f\v" (the predefined s range). -/
def sClass : List Nat := [32, 9, 13, 10, 12, 11]

/-- An ignored whitespace terminal WS = +s, registered in the context. -/
def wsIgnoredCtx : Ctx := [⟨.Ignored, .rep 1 SIZE_MAX (.chars sClass)⟩]

/-- The unordered-group body "A" & "B" & "C". -/
def abcBody : Expr :=
  .unordered [.lit (bytes "A") true, .lit (bytes "B") true, .lit (bytes "C") true]

/-- The terminal-rule body many("test"). -/
def manyTest : Expr := .rep 0 SIZE_MAX (.lit (bytes "test") true)

/-- An inner unordered group "!" & "?" used to exhibit the missing
truncation of UnorderedGroup::parse_rule. -/
def ghostInner : Expr := .unordered [.lit (bytes "!") true, .lit (bytes "?") true]

/-- The body ("!" & "?") & "!*": its first member can fail after partial
progress while the second member still makes the pass advance. -/
def ghostBody : Expr := .unordered [ghostInner, .lit (bytes "!*") true]

/-- C1: UnorderedGroup::parse_rule evaluated at the failing input.  The
group "A" & "B" fails on input "A" (member "B" is never matched), yet the
child appended by the successful member "A" remains in the parent: the
pass loop takes no size snapshot and performs no resize, unlike every
other combinator, so the parent's child list is not restored. -/
theorem unordered_failure_leaks_children :
    parseR 6 [] (.unordered [.lit (bytes "A") true, .lit (bytes "B") true]) (bytes "A") =
      (.err, [CstNode.mk [] (bytes "A") (.lit (bytes "A") true) false true false]) := rfl

/-- C4: the unordered group "A" & "B" & "C" under a data-type rule with
ignored whitespace accepts every space-separated permutation of the three
keywords as a full match of length 5, and rejects "A B B" (a member
matched twice) as well as "A C" (a member missing). -/
theorem unordered_exactly_once_each :
    ([bytes "A B C", bytes "A C B", bytes "B A C",
      bytes "B C A", bytes "C A B", bytes "C B A"].map
        (fun s => (parseTopData 8 wsIgnoredCtx abcBody s).map (fun r => (r.ret, r.len))) =
      [some (true, 5), some (true, 5), some (true, 5),
       some (true, 5), some (true, 5), some (true, 5)]) ∧
    ((parseTopData 8 wsIgnoredCtx abcBody (bytes "A B B")).map (fun r => r.ret) =
      some false) ∧
    ((parseTopData 8 wsIgnoredCtx abcBody (bytes "A C")).map (fun r => r.ret) =
      some false) :=
  ⟨rfl, rfl, rfl⟩

/-- C6: the top-level parse of a terminal rule T = many("test") matches in
terminal-mode only, even though an ignored whitespace terminal is
registered in the context: "testtest" is a full match with value
"testtest", while "test test" is not a full match because no hidden
skipping happens inside the terminal. -/
theorem terminal_rule_parse_is_terminal_mode_only :
    ((parseTopTerminal 8 wsIgnoredCtx .Normal manyTest (bytes "testtest")).map
        (fun r => (r.ret, r.value)) = some (true, bytes "testtest")) ∧
    ((parseTopTerminal 8 wsIgnoredCtx .Normal manyTest (bytes "test test")).map
        (fun r => (r.ret, r.len)) = some (false, 4)) :=
  ⟨rfl, rfl⟩

/-- C8 at the failing input: the data-type rule with body
("!" & "?") & "!*" fully matches "!*!?" (ret = true), but the default
converter returns "!!*!?": the inner unordered group first fails on the
whole input after its member "!" already matched, the leaked child "!"
stays in the parent, and its text is concatenated a second time.  With no
hidden terminal registered at all, the value differs from the input, so
the concatenation of non-hidden leaves is not the input minus hidden
tokens. -/
theorem nested_unordered_breaks_default_converter :
    ((parseTopData 8 [] ghostBody (bytes "!*!?")).map (fun r => (r.ret, r.value)) =
      some (true, bytes "!!*!?")) ∧ bytes "!!*!?" ≠ bytes "!*!?" :=
  ⟨rfl, by decide⟩

/-- C2: for a literal ending in a word character, a rule-mode match whose
next input byte is also a word character fails (and appends no child),
while the same terminal-mode match succeeds: the keyword-boundary check of
Literal::parse_rule has no counterpart in Literal::parse_terminal. -/
theorem literal_word_boundary_rule_mode_only (fuel : Nat) (ctx : Ctx)
    (l : List Nat) (c : Nat) (cs : Bool) (s : List Nat) (n : Nat)
    (hw : isword c = true)
    (ht : litT (l ++ [c]) cs s = .ok n)
    (hb : wordAt s n = true) :
    parseT (fuel + 1) (.lit (l ++ [c]) cs) s = .ok n ∧
    parseR (fuel + 1) ctx (.lit (l ++ [c]) cs) s = (.err, []) := by
  constructor
  · exact ht
  · simp only [parseR, ht, List.getLastD_concat, hw, hb, Bool.and_self, if_true]

/-- Witness for the word-boundary theorem: the literal "if" on input "ifx"
matches in terminal-mode but fails in rule-mode. -/
theorem literal_word_boundary_rule_mode_only_witness :
    parseT 5 (.lit (bytes "if") true) (bytes "ifx") = .ok 2 ∧
    parseR 5 [] (.lit (bytes "if") true) (bytes "ifx") = (.err, []) :=
  literal_word_boundary_rule_mode_only 4 [] [105] 102 true (bytes "ifx") 2 rfl rfl rfl

/-- C9: a literal ending in a word character whose match ends exactly at
the end of the input succeeds in rule-mode with the literal's length: the
unguarded word-boundary read at index sv.size() behaves as a non-word
boundary (out-of-range lookup yields no word character), so there is
neither a rejection nor an out-of-bounds failure. -/
theorem literal_match_at_end_of_input (fuel : Nat) (ctx : Ctx)
    (l : List Nat) (c : Nat) (cs : Bool) (n : Nat)
    (_hw : isword c = true)
    (ht : litT (l ++ [c]) cs (l ++ [c]) = .ok n)
    (hskip : skipHidden ctx fuel [] = some (0, [])) :
    parseR (fuel + 1) ctx (.lit (l ++ [c]) cs) (l ++ [c]) =
      (.ok (l ++ [c]).length,
       [CstNode.mk [] (l ++ [c]) (.lit (l ++ [c]) cs) false true false]) := by
  have hn : n = (l ++ [c]).length := litT_ok_length ht
  subst hn
  have hword : wordAt (l ++ [c]) (l ++ [c]).length = false := by
    unfold wordAt
    rw [List.get?_eq_none.mpr (le_refl _)]
  simp only [parseR, ht, hword, Bool.and_false, if_false, List.drop_length, hskip,
    List.take_length]
  simp

/-- Witness: the literal "if" on the input "if" (nothing follows) matches
in rule-mode with length 2. -/
theorem literal_match_at_end_of_input_witness :
    parseR 5 [] (.lit (bytes "if") true) (bytes "if") =
      (.ok (bytes "if").length,
       [CstNode.mk [] (bytes "if") (.lit (bytes "if") true) false true false]) :=
  literal_match_at_end_of_input 4 [] [105] 102 true 2 rfl rfl rfl

/-- The optional repetition phase on a body that succeeds without
consuming input runs all its remaining iterations: there is no progress
check in Repetition::parse_rule, so a zero-byte iteration does not end the
loop, and the children of each iteration accumulate. -/
theorem roptR_zero_width (p : List Nat → Res × List CstNode) (s : List Nat)
    (cs : List CstNode) (h : p s = (.ok 0, cs)) :
    ∀ k, roptR p k s = (.ok 0, (List.replicate k cs).flatten) := by
  intro k
  induction k with
  | zero => simp [roptR]
  | succ k ih =>
    simp only [roptR, h, List.drop_zero, ih, List.replicate_succ, List.flatten_cons]

/-- A Repetition [0, mx] over a body succeeding with zero bytes: the
mandatory phase is empty and the optional phase runs all mx iterations. -/
theorem parseR_rep_zero_width (fuel : Nat) (ctx : Ctx) (e : Expr)
    (s : List Nat) (cs : List CstNode) (mx : Nat)
    (h : parseR fuel ctx e s = (.ok 0, cs)) :
    parseR (fuel + 1) ctx (.rep 0 mx e) s = (.ok 0, (List.replicate mx cs).flatten) := by
  have hm : rmandR (fun s2 => parseR fuel ctx e s2) 0 s = (.ok 0, []) := rfl
  have ho := roptR_zero_width (fun s2 => parseR fuel ctx e s2) s cs h mx
  simp only [parseR, hm, Nat.sub_zero, List.drop_zero, ho, List.nil_append]

/-- C3 (amended): a Repetition [0, mx] over a body that succeeds while
consuming zero bytes performs exactly mx iterations — one per unit of the
finite bound mx, which is SIZE_MAX for many(...) — accumulating the body's
children each time, rather than stopping at the first zero-byte iteration;
termination holds only because mx is finite. -/
theorem repetition_zero_width_runs_to_max (fuel : Nat) (ctx : Ctx) (e : Expr)
    (s : List Nat) (cs : List CstNode) (mx : Nat)
    (h : parseR fuel ctx e s = (.ok 0, cs)) :
    parseR (fuel + 1) ctx (.rep 0 mx e) s = (.ok 0, (List.replicate mx cs).flatten) :=
  parseR_rep_zero_width fuel ctx e s cs mx h

/-- Witness: a Repetition [0, 2] over the zero-width body !"!" yields two
iterations of zero bytes and no children. -/
theorem repetition_zero_width_runs_to_max_witness :
    parseR 4 [] (.rep 0 2 (.notPred (.lit (bytes "!") true))) [] =
      (.ok 0, (List.replicate 2 ([] : List CstNode)).flatten) :=
  repetition_zero_width_runs_to_max 3 [] (.notPred (.lit (bytes "!") true)) [] [] 2 rfl

/-- A nullable rule call: a parser rule whose body is opt("!").  Its
rule-mode parse of the empty input succeeds with zero bytes and appends
one child node per call. -/
def nullableRule : Expr := .parserRule (.rep 0 1 (.lit (bytes "!") true))

/-- C3 counterexample: many(nullableRule) — Repetition [0, SIZE_MAX] — on
the empty input does not stop when an iteration consumes zero bytes: it
runs all SIZE_MAX iterations (appending one child each), so with the
claimed stop-at-zero-bytes policy at most one child could appear, yet
2 ^ 64 - 1 children are appended. -/
theorem many_nullable_does_not_stop_at_zero_bytes :
    (parseR 4 [] (.rep 0 SIZE_MAX nullableRule) []).1 = .ok 0 ∧
    ((parseR 4 [] (.rep 0 SIZE_MAX nullableRule) []).2).length = SIZE_MAX ∧ 1 < SIZE_MAX := by
  have h : parseR 3 [] nullableRule [] =
      (.ok 0, [CstNode.mk [] [] (.parserRule (.rep 0 1 (.lit (bytes "!") true))) false false false]) := rfl
  have hres := parseR_rep_zero_width 3 [] nullableRule []
    [CstNode.mk [] [] (.parserRule (.rep 0 1 (.lit (bytes "!") true))) false false false] SIZE_MAX h
  refine ⟨by rw [hres], ?_, by decide⟩
  rw [hres]
  have hflat : ∀ (k : Nat) (a : CstNode), (List.replicate k [a]).flatten = List.replicate k a := by
    intro k a
    induction k with
    | zero => rfl
    | succ k ih => simp [List.replicate_succ, ih]
  simp [hflat]

/-- C10: Reference::get() resolves at most once and retries on failure.
For an unresolved reference: if the resolver yields nothing the call
returns the stored (null) pointer, leaves the state untouched — resolved
stays false, the pointer stays null — and a repeated call invokes the
resolver again; once the resolver yields a value the pointer is published
(resolved set, pointer stored) and any later call — whatever resolver it
would use — returns that same pointer without invoking it. -/
theorem reference_get_resolve_once_retry_on_failure {A : Type}
    (resolve resolve2 : List Nat → Option A) (st : RefState A)
    (hst : st.resolved = false) :
    (resolve st.refText = none →
      refGet resolve st = (st.ref, st, true) ∧
      (refGet resolve st).2.1.resolved = false ∧
      (refGet resolve st).2.1.ref = st.ref ∧
      (refGet resolve (refGet resolve st).2.1).2.2 = true) ∧
    (∀ v, resolve st.refText = some v →
      refGet resolve st = (some v, { st with ref := some v, resolved := true }, true) ∧
      refGet resolve2 { st with ref := some v, resolved := true } =
        (some v, { st with ref := some v, resolved := true }, false)) := by
  constructor
  · intro hn
    have h1 : refGet resolve st = (st.ref, st, true) := by
      simp [refGet, hst, hn]
    refine ⟨h1, ?_, ?_, ?_⟩
    · rw [h1]; exact hst
    · rw [h1]
    · rw [h1]; simp [refGet, hst, hn]
  · intro v hv
    constructor
    · simp [refGet, hst, hv]
    · simp [refGet]

/-- Witness: a reference with resolver failing then succeeding. -/
theorem reference_get_resolve_once_retry_on_failure_witness :
    (refGet (fun _ => (none : Option Nat)) ⟨[], false, none⟩ = (none, ⟨[], false, none⟩, true)) ∧
    (refGet (fun _ => some 7) ⟨[], false, none⟩ = (some 7, ⟨[], true, some 7⟩, true) ∧
     refGet (fun _ => some 9) ⟨[], true, some 7⟩ = (some 7, ⟨[], true, some 7⟩, false)) := by
  constructor
  · exact ((reference_get_resolve_once_retry_on_failure (fun _ => none) (fun _ => none)
      ⟨[], false, none⟩ rfl).1 rfl).1
  · exact (reference_get_resolve_once_retry_on_failure (fun _ => some 7) (fun _ => some 9)
      ⟨[], false, none⟩ rfl).2 7 rfl

/-- A grammar source that is not an Ignored terminal rule. -/
def srcOk : Expr → Bool
  | .terminalRule .Ignored _ => false
  | _ => true

/-- No node of this CST subtree has an Ignored terminal rule as its
grammar source. -/
inductive NoIgnored : CstNode → Prop where
  | mk (content : List CstNode) (text : List Nat) (src : Expr)
      (action isLeaf hidden : Bool)
      (hsrc : srcOk src = true)
      (hc : ∀ nd ∈ content, NoIgnored nd) :
      NoIgnored (.mk content text src action isLeaf hidden)

theorem noIg_nil : ∀ nd ∈ ([] : List CstNode), NoIgnored nd := by
  intro nd hnd
  exact absurd hnd (List.not_mem_nil nd)

theorem noIg_leaf (t : List Nat) (src : Expr) (a l hid : Bool)
    (h : srcOk src = true) : NoIgnored (.mk [] t src a l hid) :=
  NoIgnored.mk [] t src a l hid h noIg_nil

theorem noIg_append {ns1 ns2 : List CstNode}
    (h1 : ∀ nd ∈ ns1, NoIgnored nd) (h2 : ∀ nd ∈ ns2, NoIgnored nd) :
    ∀ nd ∈ ns1 ++ ns2, NoIgnored nd := by
  intro nd hnd
  rcases List.mem_append.mp hnd with h | h
  · exact h1 nd h
  · exact h2 nd h

theorem noIg_cons {n : CstNode} {ns : List CstNode}
    (h1 : NoIgnored n) (h2 : ∀ nd ∈ ns, NoIgnored nd) :
    ∀ nd ∈ n :: ns, NoIgnored nd := by
  intro nd hnd
  rcases List.mem_cons.mp hnd with rfl | h
  · exact h1
  · exact h2 nd h

theorem noIg_setAction {n : CstNode} (h : NoIgnored n) : NoIgnored (setAction n) := by
  cases n with
  | mk c t g a l hid =>
    cases h with
    | mk _ _ _ _ _ _ hsrc hc => exact NoIgnored.mk c t g true l hid hsrc hc

/-- The nodes appended by one pass of the hidden skipper all avoid Ignored
sources: Ignored hidden rules append nothing, the others append leaves
sourced at a non-Ignored terminal rule. -/
theorem spass_noIg (pt : Expr → List Nat → Res) :
    ∀ hs s i ns b, spass pt hs s = some (i, ns, b) → ∀ nd ∈ ns, NoIgnored nd := by
  intro hs
  induction hs with
  | nil =>
    intro s i ns b h
    cases h
    exact noIg_nil
  | cons hr hs ih =>
    intro s i ns b h
    cases hp : pt hr.body s with
    | ok len =>
      cases len with
      | zero => simp only [spass, hp] at h; cases h
      | succ len2 =>
        simp only [spass, hp] at h
        cases hq : spass pt hs (s.drop (len2 + 1)) with
        | none => simp only [hq] at h; cases h
        | some tr =>
          obtain ⟨i2, ns2, b2⟩ := tr
          simp only [hq] at h
          by_cases hk : hr.kind = TKind.Ignored
          · rw [if_pos hk] at h
            cases h
            exact ih _ _ _ _ hq
          · rw [if_neg hk] at h
            cases h
            refine noIg_cons (noIg_leaf _ _ _ _ _ ?_) (ih _ _ _ _ hq)
            cases hkk : hr.kind with
            | Normal => rfl
            | Hidden => rfl
            | Ignored => exact absurd hkk hk
    | err =>
      simp only [spass, hp] at h
      exact ih s i ns b h
    | stuck => simp only [spass, hp] at h; cases h

/-- The nodes appended by the hidden-skipper loop all avoid Ignored sources. -/
theorem sloop_noIg (pt : Expr → List Nat → Res) (hs : List HRule) :
    ∀ f s i ns, sloop pt hs f s = some (i, ns) → ∀ nd ∈ ns, NoIgnored nd := by
  intro f
  induction f with
  | zero => intro s i ns h; cases h
  | succ f ih =>
    intro s i ns h
    cases hp : spass pt hs s with
    | none => simp only [sloop, hp] at h; cases h
    | some tr =>
      obtain ⟨i1, ns1, b1⟩ := tr
      simp only [sloop, hp] at h
      by_cases hb : b1 = true
      · rw [if_pos hb] at h
        cases hq : sloop pt hs f (s.drop i1) with
        | none => simp only [hq] at h; cases h
        | some pr2 =>
          obtain ⟨j, ns2⟩ := pr2
          simp only [hq] at h
          cases h
          exact noIg_append (spass_noIg pt hs _ _ _ _ hp) (ih _ _ _ hq)
      · rw [if_neg hb] at h
        cases h
        exact spass_noIg pt hs _ _ _ _ hp

/-- The nodes appended by Context::skipHiddenNodes all avoid Ignored
sources. -/
theorem skipHidden_noIg (ctx : Ctx) (fuel : Nat) (s : List Nat) (i : Nat)
    (ns : List CstNode) (h : skipHidden ctx fuel s = some (i, ns)) :
    ∀ nd ∈ ns, NoIgnored nd :=
  sloop_noIg (fun e2 s2 => parseT fuel e2 s2) ctx (s.length + 1) s i ns h

theorem gseqR_noIg {pr : Expr → List Nat → Res × List CstNode}
    (H : ∀ e2 s2, ∀ nd ∈ (pr e2 s2).2, NoIgnored nd) :
    ∀ es s, ∀ nd ∈ (gseqR pr es s).2, NoIgnored nd := by
  intro es
  induction es with
  | nil => intro s; exact noIg_nil
  | cons e es ih =>
    intro s
    cases hp : pr e s with
    | mk r1 cs1 =>
      cases r1 with
      | ok n =>
        simp only [gseqR, hp]
        cases hq : gseqR pr es (s.drop n) with
        | mk r2 cs2 =>
          cases r2 with
          | ok m =>
            have h1 := H e s
            rw [hp] at h1
            have h2 := ih (s.drop n)
            rw [hq] at h2
            exact noIg_append h1 h2
          | err => exact noIg_nil
          | stuck => exact noIg_nil
      | err => simp only [gseqR, hp]; exact noIg_nil
      | stuck => simp only [gseqR, hp]; exact noIg_nil

theorem gchoiceR_noIg {pr : Expr → List Nat → Res × List CstNode}
    (H : ∀ e2 s2, ∀ nd ∈ (pr e2 s2).2, NoIgnored nd) :
    ∀ es s, ∀ nd ∈ (gchoiceR pr es s).2, NoIgnored nd := by
  intro es
  induction es with
  | nil => intro s; exact noIg_nil
  | cons e es ih =>
    intro s
    cases hp : pr e s with
    | mk r1 cs1 =>
      cases r1 with
      | ok n =>
        simp only [gchoiceR, hp]
        have h1 := H e s
        rw [hp] at h1
        exact h1
      | err => simp only [gchoiceR, hp]; exact ih s
      | stuck => simp only [gchoiceR, hp]; exact noIg_nil

theorem rmandR_noIg {p : List Nat → Res × List CstNode}
    (H : ∀ s2, ∀ nd ∈ (p s2).2, NoIgnored nd) :
    ∀ k s, ∀ nd ∈ (rmandR p k s).2, NoIgnored nd := by
  intro k
  induction k with
  | zero => intro s; exact noIg_nil
  | succ k ih =>
    intro s
    cases hp : p s with
    | mk r1 cs1 =>
      cases r1 with
      | ok n =>
        simp only [rmandR, hp]
        cases hq : rmandR p k (s.drop n) with
        | mk r2 cs2 =>
          cases r2 with
          | ok m =>
            have h1 := H s
            rw [hp] at h1
            have h2 := ih (s.drop n)
            rw [hq] at h2
            exact noIg_append h1 h2
          | err => exact noIg_nil
          | stuck => exact noIg_nil
      | err => simp only [rmandR, hp]; exact noIg_nil
      | stuck => simp only [rmandR, hp]; exact noIg_nil

theorem roptR_noIg {p : List Nat → Res × List CstNode}
    (H : ∀ s2, ∀ nd ∈ (p s2).2, NoIgnored nd) :
    ∀ k s, ∀ nd ∈ (roptR p k s).2, NoIgnored nd := by
  intro k
  induction k with
  | zero => intro s; exact noIg_nil
  | succ k ih =>
    intro s
    cases hp : p s with
    | mk r1 cs1 =>
      cases r1 with
      | ok n =>
        simp only [roptR, hp]
        cases hq : roptR p k (s.drop n) with
        | mk r2 cs2 =>
          cases r2 with
          | ok m =>
            have h1 := H s
            rw [hp] at h1
            have h2 := ih (s.drop n)
            rw [hq] at h2
            exact noIg_append h1 h2
          | err => exact noIg_nil
          | stuck => exact noIg_nil
      | err => simp only [roptR, hp]; exact noIg_nil
      | stuck => simp only [roptR, hp]; exact noIg_nil

theorem upassR_noIg {pr : Expr → List Nat → Res × List CstNode}
    (H : ∀ e2 s2, ∀ nd ∈ (pr e2 s2).2, NoIgnored nd) :
    ∀ ms s, ∀ nd ∈ (upassR pr ms s).2.1, NoIgnored nd := by
  intro ms
  induction ms with
  | nil => intro s; exact noIg_nil
  | cons m ms ih =>
    intro s
    obtain ⟨e, done⟩ := m
    by_cases hd : done
    · subst hd
      simp only [upassR, if_true]
      exact ih s
    · simp only [Bool.not_eq_true] at hd
      subst hd
      cases hp : pr e s with
      | mk r1 cs1 =>
        cases r1 with
        | ok n =>
          simp only [upassR, Bool.false_eq_true, if_false, hp]
          have h1 := H e s
          rw [hp] at h1
          exact h1
        | err =>
          simp only [upassR, Bool.false_eq_true, if_false, hp]
          have h1 := H e s
          rw [hp] at h1
          exact noIg_append h1 (ih s)
        | stuck =>
          simp only [upassR, Bool.false_eq_true, if_false, hp]
          exact noIg_nil

theorem uloopR_noIg {pr : Expr → List Nat → Res × List CstNode}
    (H : ∀ e2 s2, ∀ nd ∈ (pr e2 s2).2, NoIgnored nd) :
    ∀ f ms s, ∀ nd ∈ (uloopR pr f ms s).2, NoIgnored nd := by
  intro f
  induction f with
  | zero => intro ms s; exact noIg_nil
  | succ f ih =>
    intro ms s
    simp only [uloopR]
    split
    · exact noIg_nil
    · cases hp : upassR pr ms s with
      | mk r1 tr =>
        obtain ⟨cs1, ms2⟩ := tr
        cases r1 with
        | ok n =>
          simp only [hp]
          have h1 := upassR_noIg H ms s
          rw [hp] at h1
          cases hq : uloopR pr f ms2 (s.drop n) with
          | mk r2 cs2 =>
            have h2 := ih ms2 (s.drop n)
            rw [hq] at h2
            cases r2 with
            | ok m => exact noIg_append h1 h2
            | err => exact noIg_append h1 h2
            | stuck => exact noIg_nil
        | err =>
          simp only [hp]
          have h1 := upassR_noIg H ms s
          rw [hp] at h1
          exact h1
        | stuck => simp only [hp]; exact noIg_nil

/-- No node appended by any rule-mode parse has an Ignored terminal rule
as its grammar source: the skipper only materializes non-Ignored hidden
rules, and a rule-mode call of an Ignored terminal aborts (assert) before
creating a node. -/
theorem parseR_noIg : ∀ fuel (ctx : Ctx) (e : Expr) (s : List Nat),
    ∀ nd ∈ (parseR fuel ctx e s).2, NoIgnored nd := by
  intro fuel
  induction fuel with
  | zero => intro ctx e s; exact noIg_nil
  | succ fuel ih =>
    intro ctx e s
    cases e with
    | lit l cs =>
      cases h1 : litT l cs s with
      | ok n =>
        simp only [parseR, h1]
        split
        · exact noIg_nil
        · cases hsk : skipHidden ctx fuel (s.drop n) with
          | none => exact noIg_nil
          | some pr2 =>
            obtain ⟨j, ns⟩ := pr2
            exact noIg_cons (noIg_leaf _ _ _ _ _ rfl)
              (skipHidden_noIg ctx fuel (s.drop n) j ns hsk)
      | err => simp only [parseR, h1]; exact noIg_nil
      | stuck => simp only [parseR, h1]; exact noIg_nil
    | chars set =>
      cases h1 : charT set s with
      | ok n =>
        simp only [parseR, h1]
        split
        · exact noIg_nil
        · cases hsk : skipHidden ctx fuel (s.drop n) with
          | none => exact noIg_nil
          | some pr2 =>
            obtain ⟨j, ns⟩ := pr2
            exact noIg_cons (noIg_leaf _ _ _ _ _ rfl)
              (skipHidden_noIg ctx fuel (s.drop n) j ns hsk)
      | err => simp only [parseR, h1]; exact noIg_nil
      | stuck => simp only [parseR, h1]; exact noIg_nil
    | anyChar =>
      cases h1 : cpLen s with
      | ok n =>
        simp only [parseR, h1]
        cases hsk : skipHidden ctx fuel (s.drop n) with
        | none => exact noIg_nil
        | some pr2 =>
          obtain ⟨j, ns⟩ := pr2
          exact noIg_cons (noIg_leaf _ _ _ _ _ rfl)
            (skipHidden_noIg ctx fuel (s.drop n) j ns hsk)
      | err => simp only [parseR, h1]; exact noIg_nil
      | stuck => simp only [parseR, h1]; exact noIg_nil
    | group es => exact gseqR_noIg (fun e2 s2 => ih ctx e2 s2) es s
    | choice es => exact gchoiceR_noIg (fun e2 s2 => ih ctx e2 s2) es s
    | unordered es =>
      exact uloopR_noIg (fun e2 s2 => ih ctx e2 s2) (es.length + 1) _ s
    | rep mn mx e2 =>
      cases hm : rmandR (fun s2 => parseR fuel ctx e2 s2) mn s with
      | mk r1 cs1 =>
        cases r1 with
        | ok n =>
          simp only [parseR, hm]
          cases ho : roptR (fun s2 => parseR fuel ctx e2 s2) (mx - mn) (s.drop n) with
          | mk r2 cs2 =>
            cases r2 with
            | ok m =>
              have h1 := rmandR_noIg (fun s2 => ih ctx e2 s2) mn s
              rw [hm] at h1
              have h2 := roptR_noIg (fun s2 => ih ctx e2 s2) (mx - mn) (s.drop n)
              rw [ho] at h2
              exact noIg_append h1 h2
            | err => exact noIg_nil
            | stuck => exact noIg_nil
        | err => simp only [parseR, hm]; exact noIg_nil
        | stuck => simp only [parseR, hm]; exact noIg_nil
    | andPred e2 =>
      cases hp : parseR fuel ctx e2 s with
      | mk r1 cs1 =>
        cases r1 with
        | ok n => simp only [parseR, hp]; exact noIg_nil
        | err => simp only [parseR, hp]; exact noIg_nil
        | stuck => simp only [parseR, hp]; exact noIg_nil
    | notPred e2 =>
      cases hp : parseR fuel ctx e2 s with
      | mk r1 cs1 =>
        cases r1 with
        | ok n => simp only [parseR, hp]; exact noIg_nil
        | err => simp only [parseR, hp]; exact noIg_nil
        | stuck => simp only [parseR, hp]; exact noIg_nil
    | parserRule e2 =>
      cases hp : parseR fuel ctx e2 s with
      | mk r1 cs1 =>
        cases r1 with
        | ok n =>
          simp only [parseR, hp]
          have h1 := ih ctx e2 s
          rw [hp] at h1
          exact noIg_cons (NoIgnored.mk _ _ _ _ _ _ rfl h1) noIg_nil
        | err => simp only [parseR, hp]; exact noIg_nil
        | stuck => simp only [parseR, hp]; exact noIg_nil
    | dataTypeRule e2 =>
      cases hp : parseR fuel ctx e2 s with
      | mk r1 cs1 =>
        cases r1 with
        | ok n =>
          simp only [parseR, hp]
          have h1 := ih ctx e2 s
          rw [hp] at h1
          exact noIg_cons (NoIgnored.mk _ _ _ _ _ _ rfl h1) noIg_nil
        | err => simp only [parseR, hp]; exact noIg_nil
        | stuck => simp only [parseR, hp]; exact noIg_nil
    | terminalRule k e2 =>
      cases ht : parseT fuel e2 s with
      | ok n =>
        simp only [parseR, ht]
        by_cases hk : k = TKind.Ignored
        · rw [if_pos hk]
          exact noIg_nil
        · rw [if_neg hk]
          cases hsk : skipHidden ctx fuel (s.drop n) with
          | none => exact noIg_nil
          | some pr2 =>
            obtain ⟨j, ns⟩ := pr2
            refine noIg_cons (noIg_leaf _ _ _ _ _ ?_)
              (skipHidden_noIg ctx fuel (s.drop n) j ns hsk)
            cases hkk : k with
            | Normal => rfl
            | Hidden => rfl
            | Ignored => exact absurd hkk hk
      | err => simp only [parseR, ht]; exact noIg_nil
      | stuck => simp only [parseR, ht]; exact noIg_nil
    | assignment e2 =>
      cases hp : parseR fuel ctx e2 s with
      | mk r1 cs1 =>
        have h1 := ih ctx e2 s
        rw [hp] at h1
        cases r1 with
        | ok n =>
          cases cs1 with
          | nil => simp only [parseR, hp]; exact noIg_nil
          | cons c0 cs =>
            simp only [parseR, hp]
            refine noIg_cons (noIg_setAction (h1 c0 (List.mem_cons_self c0 cs))) ?_
            intro nd hnd
            exact h1 nd (List.mem_cons_of_mem c0 hnd)
        | err => simp only [parseR, hp]; exact h1
        | stuck => simp only [parseR, hp]; exact noIg_nil

/-- C5: Ignored terminal rules never produce CST nodes.  Every node a
rule-mode parse appends — and every node the hidden-token skipper appends —
avoids an Ignored terminal rule as grammar source, recursively: on the
skipping path Ignored matches advance without materializing a node, and a
rule-mode call of an Ignored terminal trips the assert (modelled as the
aborted outcome) before any node is created. -/
theorem ignored_terminal_rules_produce_no_cst_nodes (fuel : Nat) (ctx : Ctx)
    (e : Expr) (s : List Nat) :
    (∀ nd ∈ (parseR fuel ctx e s).2, NoIgnored nd) ∧
    (∀ i ns, skipHidden ctx fuel s = some (i, ns) → ∀ nd ∈ ns, NoIgnored nd) :=
  ⟨parseR_noIg fuel ctx e s, fun i ns h => skipHidden_noIg ctx fuel s i ns h⟩

/-- Witness: the single CST node of a successful literal parse under a
context holding an Ignored whitespace terminal satisfies the predicate. -/
theorem ignored_terminal_rules_produce_no_cst_nodes_witness :
    NoIgnored (CstNode.mk [] (bytes "A") (.lit (bytes "A") true) false true false) :=
  (ignored_terminal_rules_produce_no_cst_nodes 6 wsIgnoredCtx
      (.lit (bytes "A") true) (bytes "A")).1
    (CstNode.mk [] (bytes "A") (.lit (bytes "A") true) false true false)
    (show CstNode.mk [] (bytes "A") (.lit (bytes "A") true) false true false ∈
        [CstNode.mk [] (bytes "A") (.lit (bytes "A") true) false true false] from
      List.mem_singleton.mpr rfl)

/-- A hidden leaf CST node recorded for a non-Ignored hidden terminal of
the list hs. -/
def HiddenLeafOf (hs : List HRule) (nd : CstNode) : Prop :=
  nd.isLeaf = true ∧ nd.hidden = true ∧
    ∃ h ∈ hs, h.kind ≠ TKind.Ignored ∧ nd.src = .terminalRule h.kind h.body

theorem hiddenLeafOf_weaken {hs : List HRule} {h : HRule} {nd : CstNode}
    (hh : HiddenLeafOf hs nd) : HiddenLeafOf (h :: hs) nd := by
  obtain ⟨h1, h2, hr, hm, h3, h4⟩ := hh
  exact ⟨h1, h2, hr, List.mem_cons_of_mem h hm, h3, h4⟩

/-- One pass of the hidden skipper is total when every hidden terminal
consumes at least one byte on success and never aborts: the pass returns,
consumes at most the remaining input, consumes at least one byte whenever
it matched, and appends only hidden leaves of non-Ignored rules. -/
theorem spass_total (pt : Expr → List Nat → Res) :
    ∀ hs : List HRule,
    (∀ h ∈ hs, ∀ t n, pt h.body t = .ok n → 1 ≤ n) →
    (∀ h ∈ hs, ∀ t, pt h.body t ≠ .stuck) →
    (∀ h ∈ hs, ∀ t n, pt h.body t = .ok n → n ≤ t.length) →
    ∀ s, ∃ i ns b, spass pt hs s = some (i, ns, b) ∧ i ≤ s.length ∧
      (b = false → i = 0 ∧ ns = []) ∧ (b = true → 1 ≤ i) ∧
      (∀ nd ∈ ns, HiddenLeafOf hs nd) := by
  intro hs
  induction hs with
  | nil =>
    intro _ _ _ s
    refine ⟨0, [], false, rfl, ?_, ?_, ?_, ?_⟩
    · omega
    · intro _
      exact ⟨rfl, rfl⟩
    · intro hb
      simp at hb
    · intro nd hnd
      exact absurd hnd (List.not_mem_nil nd)
  | cons h hs ih =>
    intro hok hns hle s
    have hok2 : ∀ h2 ∈ hs, ∀ t n, pt h2.body t = .ok n → 1 ≤ n :=
      fun h2 hm => hok h2 (List.mem_cons_of_mem h hm)
    have hns2 : ∀ h2 ∈ hs, ∀ t, pt h2.body t ≠ .stuck :=
      fun h2 hm => hns h2 (List.mem_cons_of_mem h hm)
    have hle2 : ∀ h2 ∈ hs, ∀ t n, pt h2.body t = .ok n → n ≤ t.length :=
      fun h2 hm => hle h2 (List.mem_cons_of_mem h hm)
    cases hp : pt h.body s with
    | ok n =>
      cases n with
      | zero =>
        have := hok h (List.mem_cons_self h hs) s 0 hp
        omega
      | succ m =>
        obtain ⟨i2, ns2, b2, hq, hq1, _, _, hq4⟩ := ih hok2 hns2 hle2 (s.drop (m + 1))
        have hlen : m + 1 ≤ s.length := hle h (List.mem_cons_self h hs) s (m + 1) hp
        rw [List.length_drop] at hq1
        by_cases hk : h.kind = TKind.Ignored
        · refine ⟨m + 1 + i2, ns2, true, ?_, ?_, ?_, ?_, ?_⟩
          · simp only [spass, hp, hq, if_pos hk]
          · omega
          · intro hb
            simp at hb
          · intro _
            omega
          · intro nd hnd
            exact hiddenLeafOf_weaken (hq4 nd hnd)
        · refine ⟨m + 1 + i2,
            CstNode.mk [] (s.take (m + 1)) (.terminalRule h.kind h.body) false true true :: ns2,
            true, ?_, ?_, ?_, ?_, ?_⟩
          · simp only [spass, hp, hq, if_neg hk]
          · omega
          · intro hb
            simp at hb
          · intro _
            omega
          · intro nd hnd
            rcases List.mem_cons.mp hnd with rfl | hnd2
            · exact ⟨rfl, rfl, h, List.mem_cons_self h hs, hk, rfl⟩
            · exact hiddenLeafOf_weaken (hq4 nd hnd2)
    | err =>
      obtain ⟨i2, ns2, b2, hq, hq1, hq2, hq3, hq4⟩ := ih hok2 hns2 hle2 s
      refine ⟨i2, ns2, b2, ?_, hq1, hq2, hq3, fun nd hnd => hiddenLeafOf_weaken (hq4 nd hnd)⟩
      simp only [spass, hp, hq]
    | stuck => exact absurd hp (hns h (List.mem_cons_self h hs) s)

/-- The pass loop of the hidden skipper is total given a fuel exceeding
the remaining input length: under the precondition each matching pass
strictly advances, so the loop exits by a pass without a match. -/
theorem sloop_total (pt : Expr → List Nat → Res) (hs : List HRule)
    (hok : ∀ h ∈ hs, ∀ t n, pt h.body t = .ok n → 1 ≤ n)
    (hns : ∀ h ∈ hs, ∀ t, pt h.body t ≠ .stuck)
    (hle : ∀ h ∈ hs, ∀ t n, pt h.body t = .ok n → n ≤ t.length) :
    ∀ f s, s.length < f →
      ∃ i ns, sloop pt hs f s = some (i, ns) ∧ i ≤ s.length ∧
        ∀ nd ∈ ns, HiddenLeafOf hs nd := by
  intro f
  induction f with
  | zero => intro s hlt; omega
  | succ f ih =>
    intro s hlt
    obtain ⟨i1, ns1, b1, hp, hp1, hp2, hp3, hp4⟩ := spass_total pt hs hok hns hle s
    cases b1 with
    | false =>
      obtain ⟨hi0, hns0⟩ := hp2 rfl
      subst hi0
      subst hns0
      refine ⟨0, [], ?_, ?_, ?_⟩
      · simp only [sloop, hp, Bool.false_eq_true, if_false]
      · omega
      · intro nd hnd
        exact absurd hnd (List.not_mem_nil nd)
    | true =>
      have h1 : 1 ≤ i1 := hp3 rfl
      obtain ⟨j, ns2, hq, hq1, hq2⟩ := ih (s.drop i1) (by rw [List.length_drop]; omega)
      rw [List.length_drop] at hq1
      refine ⟨i1 + j, ns1 ++ ns2, ?_, by omega, ?_⟩
      · simp only [sloop, hp, if_true, hq]
      · intro nd hnd
        rcases List.mem_append.mp hnd with hnd1 | hnd2
        · exact hp4 nd hnd1
        · exact hq2 nd hnd2

/-- C7: under the precondition that every hidden terminal of the context
consumes at least one byte on any successful match (and its body's
terminal-mode parse never aborts at the given depth fuel),
Context::skipHiddenNodes returns for every input — the zero-width assert
cannot fire and each matching pass strictly advances, so the internal pass
budget of input length + 1 never runs out — consuming at most the input
and appending one hidden leaf child per non-Ignored hidden-terminal
match. -/
theorem skip_hidden_nodes_terminates (fuel : Nat) (ctx : Ctx) (s : List Nat)
    (hok : ∀ h ∈ ctx, ∀ t n, parseT fuel h.body t = .ok n → 1 ≤ n)
    (hns : ∀ h ∈ ctx, ∀ t, parseT fuel h.body t ≠ .stuck) :
    ∃ i ns, skipHidden ctx fuel s = some (i, ns) ∧ i ≤ s.length ∧
      ∀ nd ∈ ns, HiddenLeafOf ctx nd :=
  sloop_total (fun e2 s2 => parseT fuel e2 s2) ctx hok hns
    (fun h _ t n hh => parseT_le fuel h.body t n hh) (s.length + 1) s
    (Nat.lt_succ_self s.length)

/-- Witness: a Hidden single-space terminal over the input " !" skips one
byte and appends one hidden leaf. -/
theorem skip_hidden_nodes_terminates_witness :
    ∃ i ns, skipHidden [⟨.Hidden, .lit [32] true⟩] 5 (bytes " !") = some (i, ns) ∧
      i ≤ (bytes " !").length ∧
      ∀ nd ∈ ns, HiddenLeafOf [⟨.Hidden, .lit [32] true⟩] nd :=
  skip_hidden_nodes_terminates 5 [⟨.Hidden, .lit [32] true⟩] (bytes " !")
    (by
      intro h hm t n hp
      rw [List.mem_singleton.mp hm] at hp
      have hp2 : litT [32] true t = .ok n := hp
      have hl := litT_ok_length hp2
      subst hl
      decide)
    (by
      intro h hm t hp
      rw [List.mem_singleton.mp hm] at hp
      exact litT_ne_stuck [32] true t hp)
